import Mathlib

/-!
Verification of the Patricia-tree core of the repository (src/patricia/ptree.py)
against its natural-language specification.

The node structure is a shallow embedding of the Python classes `Branch`,
`Extension` and `Leaf`.  Because the Python code (in the extension-split case of
`Branch.set`, line 71) passes the extension's child *node* where a `bytes` value
is expected, stored values must be modelled as a sum `PVal` of byte strings and
nodes.  Branch children are a 16-slot list `Slots` of optional nodes.

The canonical encoder (the `rlp` library) and the digest (`sha3_256`) are
external collaborators; they are modelled as parameters `enc`/`dig` over the
atom shapes the trie actually hashes (byte strings, non-negative integers and
integer lists), with concrete executable instances used for witnesses.
-/

set_option maxRecDepth 10000

namespace PTree

/-- `bytes_to_nibbles` from ptree.py: each byte `b` contributes
`b % 16` (low nibble) then `b // 16` (high nibble), in input order. -/
def bytes_to_nibbles : List Nat → List Nat
  | [] => []
  | b :: rest => b % 16 :: b / 16 :: bytes_to_nibbles rest

mutual

/-- A trie node: `Branch` (16 child slots, optional directly-stored value,
optional cached hash), `Extension` (compacted path, child, optional cached
hash) or `Leaf` (suffix, stored value, optional cached hash). -/
inductive Node : Type where
  | branch (children : Slots) (data : Datum) (hash : Option (List Nat)) : Node
  | ext (path : List Nat) (child : Node) (hash : Option (List Nat)) : Node
  | leaf (suffix : List Nat) (data : PVal) (hash : Option (List Nat)) : Node

/-- The `children` list of a branch (Python: a list of `Optional[Node]`). -/
inductive Slots : Type where
  | nil : Slots
  | cons (hd : OptNode) (tl : Slots) : Slots

/-- An optional child reference in a branch slot. -/
inductive OptNode : Type where
  | none : OptNode
  | some (n : Node) : OptNode

/-- A stored value.  In the Python source a value is annotated `bytes`, but the
extension-split case of `Branch.set` actually stores a node object as a value,
so the model must allow both. -/
inductive PVal : Type where
  | bytes (b : List Nat) : PVal
  | node (n : Node) : PVal

/-- An optional stored value (the `data` field of a branch, and the result type
of `get`). -/
inductive Datum : Type where
  | none : Datum
  | some (v : PVal) : Datum

end

/-- Errors observable from the Python code: `RuntimeError("Already sealed!")`
in `PatriciaTree.set`, the `assert self.hash is None` / `assert path ==
self.suffix` assertion failures, the missing `Extension.set` method
(`AttributeError`), and list `IndexError`. -/
inductive SErr : Type where
  | alreadySealed : SErr
  | sealedNode : SErr
  | assertFailed : SErr
  | noMethod : SErr
  | indexOut : SErr
deriving DecidableEq, Repr

def Slots.length : Slots → Nat
  | .nil => 0
  | .cons _ tl => tl.length + 1

def Slots.get : Slots → Nat → OptNode
  | .nil, _ => .none
  | .cons hd _, 0 => hd
  | .cons _ tl, n + 1 => tl.get n

/-- `[None for _ in range(n)]`. -/
def Slots.mkNone : Nat → Slots
  | 0 => .nil
  | n + 1 => .cons .none (Slots.mkNone n)

/-- `Branch()`: 16 empty slots, no data, no hash. -/
def Node.emptyBranch : Node := .branch (Slots.mkNone 16) .none .none

/-- Replace slot `i` by the given node (used to model the writes the split code
performs on a freshly created branch); `IndexError` past the end. -/
def Slots.placeNode : Slots → Nat → Node → Except SErr Slots
  | .nil, _, _ => .error .indexOut
  | .cons _ tl, 0, nd => .ok (.cons (.some nd) tl)
  | .cons hd tl, n + 1, nd => do
      let tl' ← tl.placeNode n nd
      .ok (.cons hd tl')

/-- Longest common prefix length, as computed by the `while` loops in the
extension and leaf cases of `Branch.set`. -/
def commonPrefixLen : List Nat → List Nat → Nat
  | a :: as, b :: bs => if a = b then commonPrefixLen as bs + 1 else 0
  | _, _ => 0

/-- Net effect of `branch = Branch(); branch.set(p1, v1); branch.set(p2, v2)`
on a fresh branch, as the prefix-split cases of `Branch.set` perform it.
At the split call sites `p1` and `p2` never start with the same nibble (the
common-prefix loop is maximal), which is the hypothesis under which theorem
`mkSplitBranch_models_two_sets` certifies this definition against `Node.set`. -/
def mkSplitBranch : List Nat → PVal → List Nat → PVal → Except SErr Node
  | [], _, [], v2 => .ok (.branch (Slots.mkNone 16) (.some v2) .none)
  | [], v1, j :: jt, v2 => do
      let cs ← (Slots.mkNone 16).placeNode j (.leaf jt v2 .none)
      .ok (.branch cs (.some v1) .none)
  | r :: rt, v1, [], v2 => do
      let cs ← (Slots.mkNone 16).placeNode r (.leaf rt v1 .none)
      .ok (.branch cs (.some v2) .none)
  | r :: rt, v1, j :: jt, v2 => do
      let cs1 ← (Slots.mkNone 16).placeNode r (.leaf rt v1 .none)
      let cs2 ← cs1.placeNode j (.leaf jt v2 .none)
      .ok (.branch cs2 .none .none)

mutual

/-- `set` method dispatch: `Branch.set` (lines 45-98), the missing
`Extension.set` (`AttributeError`), and `Leaf.set` (lines 207-210). -/
def Node.set : Node → List Nat → PVal → Except SErr Node
  | .branch cs data h, p, v =>
      if h.isSome then .error .sealedNode
      else
        match p with
        | [] => .ok (.branch cs (.some v) h)
        | i :: rest => do
            let cs' ← Slots.setAt cs i rest v
            .ok (.branch cs' data h)
  | .ext _ _ _, _, _ => .error .noMethod
  | .leaf suffix _ h, p, v =>
      if h.isSome then .error .sealedNode
      else if p = suffix then .ok (.leaf suffix v h)
      else .error .assertFailed
termination_by structural n => n

/-- The body of `Branch.set` after `idx = path.pop(0)`: walk to slot `idx`
(`IndexError` past the end) and treat the child found there. -/
def Slots.setAt : Slots → Nat → List Nat → PVal → Except SErr Slots
  | .nil, _, _, _ => .error .indexOut
  | .cons hd tl, 0, p, v => do
      let hd' ← OptNode.setChild hd p v
      .ok (.cons hd' tl)
  | .cons hd tl, n + 1, p, v => do
      let tl' ← Slots.setAt tl n p v
      .ok (.cons hd tl')

/-- `Branch.set` on the selected slot: `None` becomes a fresh leaf holding the
remaining path and the value (line 57); otherwise the existing child is
handled according to its kind (lines 58-98). -/
def OptNode.setChild : OptNode → List Nat → PVal → Except SErr OptNode
  | .none, p, v => .ok (.some (.leaf p v .none))
  | .some child, p, v => Node.insertChild child p v

/-- The `isinstance` dispatch of `Branch.set` on an existing child
(lines 58-98 of ptree.py):
a branch child recurses (`child.set(path, data)`, whose body is that of
`Node.set` for a branch); an extension child is split on the longest common
prefix, where line 71 passes the extension's child node as the `data` argument
of the fresh branch's `set`; a leaf child is overwritten on an exact suffix
match and otherwise split the same way, with the leaf's value re-inserted. -/
def Node.insertChild : Node → List Nat → PVal → Except SErr OptNode
  | .branch bcs bdata bh, p, v =>
      if bh.isSome then .error .sealedNode
      else
        match p with
        | [] => .ok (.some (.branch bcs (.some v) bh))
        | i :: rest => do
            let cs' ← Slots.setAt bcs i rest v
            .ok (.some (.branch cs' bdata bh))
  | .ext epath echild eh, p, v =>
      let pos := commonPrefixLen p epath
      if epath.length = pos then do
        let ec' ← Node.set echild (p.drop pos) v
        .ok (.some (.ext epath ec' eh))
      else do
        let nb ← mkSplitBranch (p.drop pos) v (epath.drop pos) (.node echild)
        if 0 < pos then
          .ok (.some (.ext (epath.take pos) nb .none))
        else
          .ok (.some nb)
  | .leaf suffix ldata lh, p, v =>
      let pos := commonPrefixLen p suffix
      if suffix.length = pos ∧ p.drop pos = [] then
        .ok (.some (.leaf suffix v lh))
      else do
        let nb ← mkSplitBranch (p.drop pos) v (suffix.drop pos) ldata
        if 0 < pos then
          .ok (.some (.ext (suffix.take pos) nb .none))
        else
          .ok (.some nb)

end

mutual

/-- `get` method dispatch: `Branch.get` (lines 35-43), `Extension.get`
(lines 169-177), `Leaf.get` (lines 212-216). -/
def Node.get : Node → List Nat → Datum
  | .branch _ data _, [] => data
  | .branch cs _ _, i :: rest => Slots.getAt cs i rest
  | .ext epath child _, p =>
      if p.length < epath.length then .none
      else if p.take epath.length = epath then Node.get child (p.drop epath.length)
      else .none
  | .leaf suffix data _, p => if p = suffix then .some data else .none

/-- `Branch.get` after `idx = path.pop(0)`: find slot `idx`. -/
def Slots.getAt : Slots → Nat → List Nat → Datum
  | .nil, _, _ => .none
  | .cons hd _, 0, p => OptNode.getChild hd p
  | .cons _ tl, n + 1, p => Slots.getAt tl n p

/-- `Branch.get` on the selected slot: `None` for an absent child, else the
child's `get`. -/
def OptNode.getChild : OptNode → List Nat → Datum
  | .none, _ => .none
  | .some child, p => Node.get child p

end

mutual

/-- The only mutation `get` performs in Python is `path.pop(0)` on the nibble
list it was handed.  This variant returns, next to the result, the state of
that list when the call returns (`Extension.get` passes a fresh slice to its
child, so it never mutates the caller's list). -/
def Node.getMut : Node → List Nat → Datum × List Nat
  | .branch _ data _, [] => (data, [])
  | .branch cs _ _, i :: rest => Slots.getMutAt cs i rest
  | .ext epath child _, p =>
      if p.length < epath.length then (.none, p)
      else if p.take epath.length = epath then
        ((Node.getMut child (p.drop epath.length)).fst, p)
      else (.none, p)
  | .leaf suffix data _, p => (if p = suffix then .some data else .none, p)

def Slots.getMutAt : Slots → Nat → List Nat → Datum × List Nat
  | .nil, _, p => (.none, p)
  | .cons hd _, 0, p => OptNode.getMutChild hd p
  | .cons _ tl, n + 1, p => Slots.getMutAt tl n p

def OptNode.getMutChild : OptNode → List Nat → Datum × List Nat
  | .none, p => (.none, p)
  | .some child, p => Node.getMut child p

end

/-- The atom shapes that occur in the `to_hash` lists the trie passes to
`rlp.encode`: a byte string, a non-negative integer (the zero sentinel), or a
list of integers (a nibble path). -/
inductive RLPAtom : Type where
  | bytes (b : List Nat) : RLPAtom
  | natv (n : Nat) : RLPAtom
  | nats (l : List Nat) : RLPAtom
deriving DecidableEq, Repr

mutual

/-- `seal` method dispatch: `Branch.seal` (lines 100-120), `Extension.seal`
(lines 153-163), `Leaf.seal` (lines 193-202).  `enc` models `rlp.encode`,
`dig` models `sha3_256(...).digest()`.  A stored value that is a node object
cannot be serialized by `rlp` (it raises), modelled as `Option.none`.
No method consults an already-cached hash: each call recomputes and
re-assigns it, exactly as the source does. -/
def Node.seal (enc : List RLPAtom → List Nat) (dig : List Nat → List Nat) :
    Node → Option (List Nat × Node)
  | .branch cs data _ => do
      let (items, cs') ← Slots.sealAll enc dig cs
      let ditem ←
        match data with
        | .none => Option.some (RLPAtom.natv 0)
        | .some (.bytes b) => Option.some (RLPAtom.bytes b)
        | .some (.node _) => Option.none
      let h := dig (enc (items ++ [ditem]))
      Option.some (h, .branch cs' data (Option.some h))
  | .ext epath child _ => do
      let (ch, child') ← Node.seal enc dig child
      let h := dig (enc [.nats epath, .bytes ch])
      Option.some (h, .ext epath child' (Option.some h))
  | .leaf suffix data _ =>
      match data with
      | .bytes b =>
          let h := dig (enc [.nats suffix, .bytes b])
          Option.some (h, .leaf suffix (.bytes b) (Option.some h))
      | .node _ => Option.none

/-- The child loop of `Branch.seal`: for each slot in index order, append the
child's seal hash, or the integer 0 for an absent child. -/
def Slots.sealAll (enc : List RLPAtom → List Nat) (dig : List Nat → List Nat) :
    Slots → Option (List RLPAtom × Slots)
  | .nil => Option.some ([], .nil)
  | .cons hd tl => do
      let (item, hd') ← OptNode.sealSlot enc dig hd
      let (items, tl') ← Slots.sealAll enc dig tl
      Option.some (item :: items, .cons hd' tl')

def OptNode.sealSlot (enc : List RLPAtom → List Nat) (dig : List Nat → List Nat) :
    OptNode → Option (RLPAtom × OptNode)
  | .none => Option.some (RLPAtom.natv 0, .none)
  | .some child => do
      let (ch, child') ← Node.seal enc dig child
      Option.some (RLPAtom.bytes ch, .some child')

end

mutual

/-- `clone` method dispatch: `Branch.clone` (lines 122-130), `Extension.clone`
(lines 179-183), `Leaf.clone` (lines 218-220): a recursive copy with every
`hash` field reset to `None`; stored values are carried over by reference. -/
def Node.clone : Node → Node
  | .branch cs data _ => .branch (Slots.cloneAll cs) data .none
  | .ext epath child _ => .ext epath (Node.clone child) .none
  | .leaf suffix data _ => .leaf suffix data .none

def Slots.cloneAll : Slots → Slots
  | .nil => .nil
  | .cons hd tl => .cons (OptNode.cloneSlot hd) (Slots.cloneAll tl)

def OptNode.cloneSlot : OptNode → OptNode
  | .none => .none
  | .some child => .some (Node.clone child)

end

def Node.isBranch : Node → Bool
  | .branch _ _ _ => true
  | _ => false

/-- Every entry is a valid nibble (a value in `[0, 16)`). -/
def validNibs : List Nat → Bool
  | [] => true
  | x :: xs => decide (x < 16) && validNibs xs

mutual

/-- Structural well-formedness of reachable trees: branches carry exactly 16
slots; extension paths are non-empty valid nibble runs and extension children
are branches; leaf suffixes are valid nibble runs. -/
def Node.wf : Node → Bool
  | .branch cs _ _ => decide (Slots.length cs = 16) && Slots.wfAll cs
  | .ext epath child _ =>
      decide (epath ≠ []) && validNibs epath && Node.isBranch child && Node.wf child
  | .leaf suffix _ _ => validNibs suffix

def Slots.wfAll : Slots → Bool
  | .nil => true
  | .cons hd tl => OptNode.wfSlot hd && Slots.wfAll tl

def OptNode.wfSlot : OptNode → Bool
  | .none => true
  | .some child => Node.wf child

end

mutual

/-- No node in the tree carries a cached hash (the state of every tree built
only by `set` from `PatriciaTree()` or produced by `clone`). -/
def Node.unsealed : Node → Bool
  | .branch cs _ h => h.isNone && Slots.unsealedAll cs
  | .ext _ child h => h.isNone && Node.unsealed child
  | .leaf _ _ h => h.isNone

def Slots.unsealedAll : Slots → Bool
  | .nil => true
  | .cons hd tl => OptNode.unsealedSlot hd && Slots.unsealedAll tl

def OptNode.unsealedSlot : OptNode → Bool
  | .none => true
  | .some child => Node.unsealed child

end

mutual

/-- Every node in the tree carries a cached hash. -/
def Node.allSealed : Node → Bool
  | .branch cs _ h => h.isSome && Slots.allSealedAll cs
  | .ext _ child h => h.isSome && Node.allSealed child
  | .leaf _ _ h => h.isSome

def Slots.allSealedAll : Slots → Bool
  | .nil => true
  | .cons hd tl => OptNode.allSealedSlot hd && Slots.allSealedAll tl

def OptNode.allSealedSlot : OptNode → Bool
  | .none => true
  | .some child => Node.allSealed child

end

def Node.hashOf : Node → Option (List Nat)
  | .branch _ _ h => h
  | .ext _ _ h => h
  | .leaf _ _ h => h

/-- The trie container (class `PatriciaTree`): owns one root branch. -/
structure PatriciaTree : Type where
  root : Node

/-- `PatriciaTree()` with `prev=None`: a fresh empty branch as root. -/
def PatriciaTree.new : PatriciaTree := ⟨Node.emptyBranch⟩

/-- `PatriciaTree.is_sealed`: whether the root carries a hash. -/
def PatriciaTree.is_sealed (t : PatriciaTree) : Bool := t.root.hashOf.isSome

/-- `PatriciaTree.set`: reject if sealed, else nibble-decode and delegate to
the root's `set`. -/
def PatriciaTree.set (t : PatriciaTree) (key : List Nat) (v : PVal) :
    Except SErr PatriciaTree :=
  if t.is_sealed then .error .alreadySealed
  else do
    let r ← t.root.set (bytes_to_nibbles key) v
    .ok ⟨r⟩

/-- `PatriciaTree.set` as a state transformer: Python raises its errors before
any node content is altered, so on error the tree is unchanged. -/
def PatriciaTree.setOp (t : PatriciaTree) (key : List Nat) (v : PVal) :
    Except SErr Unit × PatriciaTree :=
  match t.set key v with
  | .ok t' => (.ok (), t')
  | .error e => (.error e, t)

/-- `PatriciaTree.get`: nibble-decode and delegate to the root's `get`. -/
def PatriciaTree.get (t : PatriciaTree) (key : List Nat) : Datum :=
  t.root.get (bytes_to_nibbles key)

/-- `PatriciaTree.get` as a state transformer: the wrapper builds a fresh
nibble list (`nkey`), the node-level `get` destructively consumes only that
list, and no node is modified, so the trie state is returned unchanged. -/
def PatriciaTree.getOp (t : PatriciaTree) (key : List Nat) :
    Datum × PatriciaTree :=
  ((t.root.getMut (bytes_to_nibbles key)).fst, t)

/-- `PatriciaTree.clone` / `PatriciaTree(prev=...)`: new container around a
recursive copy of the root. -/
def PatriciaTree.clone (t : PatriciaTree) : PatriciaTree := ⟨t.root.clone⟩

/-- `PatriciaTree.seal`: delegate to the root's `seal`; returns the root hash
and the tree with its cached hashes filled in. -/
def PatriciaTree.seal (t : PatriciaTree) (enc : List RLPAtom → List Nat)
    (dig : List Nat → List Nat) : Option (List Nat × PatriciaTree) :=
  (t.root.seal enc dig).map (fun p => (p.fst, ⟨p.snd⟩))

/-- Build a trie by applying `setOp` for each (key, value) pair in order,
starting from a fresh empty trie. -/
def buildOps (ops : List (List Nat × PVal)) : PatriciaTree :=
  ops.foldl (fun t kv => (t.setOp kv.fst kv.snd).snd) PatriciaTree.new

/-- A key is a byte string: every entry is in `[0, 256)`. -/
def validKey (k : List Nat) : Bool :=
  k.all (fun b => decide (b < 256))

/-- A concrete executable stand-in for the canonical encoder: an injective
tag-length encoding over the atom shapes used by `seal`. -/
def encAtom : RLPAtom → List Nat
  | .bytes b => 0 :: b.length :: b
  | .natv n => [1, n]
  | .nats l => 2 :: l.length :: l

def encode0 (l : List RLPAtom) : List Nat :=
  l.foldr (fun a acc => encAtom a ++ acc) []

/-- A concrete executable stand-in for the digest function. -/
def digest0 (l : List Nat) : List Nat := l

mutual

/-- Modelled from the spec (section 4.3 Sealing Protocol): the hash `seal`
must return, defined recursively and without caching.  A Leaf's content is the
pair (suffix, value); an Extension's content is the pair (path, child's seal
hash); a Branch's content is the 17-tuple of the 16 child slots — each a
child's seal hash or the zero sentinel — followed by the directly-stored value
or the zero sentinel.  Each node's hash is `dig (enc content)`.  The spec
gives no encoding for a node-object value, matching the encoder failure in the
code. -/
def Node.sealSpec (enc : List RLPAtom → List Nat) (dig : List Nat → List Nat) :
    Node → Option (List Nat)
  | .branch cs data _ => do
      let items ← Slots.sealSpecAll enc dig cs
      let ditem ←
        match data with
        | .none => Option.some (RLPAtom.natv 0)
        | .some (.bytes b) => Option.some (RLPAtom.bytes b)
        | .some (.node _) => Option.none
      Option.some (dig (enc (items ++ [ditem])))
  | .ext epath child _ => do
      let ch ← Node.sealSpec enc dig child
      Option.some (dig (enc [.nats epath, .bytes ch]))
  | .leaf suffix data _ =>
      match data with
      | .bytes b => Option.some (dig (enc [.nats suffix, .bytes b]))
      | .node _ => Option.none

/-- Spec form of the 16 child slots: each a seal hash or the zero sentinel. -/
def Slots.sealSpecAll (enc : List RLPAtom → List Nat) (dig : List Nat → List Nat) :
    Slots → Option (List RLPAtom)
  | .nil => Option.some []
  | .cons hd tl => do
      let item ← OptNode.sealSpecSlot enc dig hd
      let items ← Slots.sealSpecAll enc dig tl
      Option.some (item :: items)

def OptNode.sealSpecSlot (enc : List RLPAtom → List Nat) (dig : List Nat → List Nat) :
    OptNode → Option RLPAtom
  | .none => Option.some (RLPAtom.natv 0)
  | .some child => do
      let ch ← Node.sealSpec enc dig child
      Option.some (RLPAtom.bytes ch)

end

/-- The empty trie, sealed with the concrete encoder and digest stand-ins. -/
def sealedEmptyTree : PatriciaTree :=
  match PatriciaTree.new.seal encode0 digest0 with
  | Option.some p => p.snd
  | Option.none => PatriciaTree.new

/-- The root hash of the sealed empty trie under the concrete stand-ins. -/
def emptySealHash : List Nat :=
  match PatriciaTree.new.seal encode0 digest0 with
  | Option.some p => p.fst
  | Option.none => []

def bugK1 : List Nat := [17, 17]

def bugK2 : List Nat := [17, 33]

def bugK3 : List Nat := [33]

def bugV1 : PVal := .bytes [65]

def bugV2 : PVal := .bytes [66]

def bugV3 : PVal := .bytes [67]

/-! ## Linking the destructive-path variant of `get` to the pure one -/

mutual

theorem Node.getMut_fst : (n : Node) → (p : List Nat) → (n.getMut p).fst = n.get p
  | .branch _ _ _, [] => rfl
  | .branch cs _ _, i :: rest => Slots.getMutAt_fst cs i rest
  | .ext epath child _, p => by
      by_cases h1 : p.length < epath.length
      · simp [Node.getMut, Node.get, h1]
      · by_cases h2 : p.take epath.length = epath
        · simp [Node.getMut, Node.get, h1, h2, Node.getMut_fst child (p.drop epath.length)]
        · simp [Node.getMut, Node.get, h1, h2]
  | .leaf _ _ _, _ => rfl

theorem Slots.getMutAt_fst : (cs : Slots) → (i : Nat) → (p : List Nat) →
    (Slots.getMutAt cs i p).fst = Slots.getAt cs i p
  | .nil, _, _ => rfl
  | .cons hd _, 0, p => OptNode.getMutChild_fst hd p
  | .cons _ tl, n + 1, p => Slots.getMutAt_fst tl n p

theorem OptNode.getMutChild_fst : (c : OptNode) → (p : List Nat) →
    (OptNode.getMutChild c p).fst = OptNode.getChild c p
  | .none, _ => rfl
  | .some child, p => Node.getMut_fst child p

end

/-! ## Claim C9: the nibble codec -/

/-- C9: `bytes_to_nibbles` is a pure total function (it is a total Lean
function of the key alone): for every key of length N it returns exactly 2N
nibbles, where byte `k[i]` contributes the pair `(k[i] % 16, k[i] / 16)` at
positions 2i and 2i+1 — low nibble first, high nibble second. -/
theorem bytes_to_nibbles_spec (k : List Nat) :
    (bytes_to_nibbles k).length = 2 * k.length ∧
    ∀ i, (hi : i < k.length) →
      (bytes_to_nibbles k).get? (2 * i) = Option.some (k[i] % 16) ∧
      (bytes_to_nibbles k).get? (2 * i + 1) = Option.some (k[i] / 16) := by
  induction k with
  | nil => exact ⟨rfl, fun i hi => absurd hi (Nat.not_lt_zero i)⟩
  | cons b rest ih =>
      refine ⟨by simp [bytes_to_nibbles, ih.1]; ring, ?_⟩
      intro i hi
      match i with
      | 0 => exact ⟨rfl, rfl⟩
      | j + 1 =>
          have hj : j < rest.length := Nat.lt_of_succ_lt_succ hi
          have h2 : 2 * (j + 1) = 2 * j + 1 + 1 := by ring
          have := (ih.2 j hj)
          constructor
          · rw [h2]
            simpa [bytes_to_nibbles] using this.1
          · rw [h2]
            simpa [bytes_to_nibbles] using this.2

/-- Witness for `bytes_to_nibbles_spec` at the concrete key `[0x66, 0x1f]`. -/
theorem bytes_to_nibbles_spec_witness :
    (bytes_to_nibbles [102, 31]).length = 2 * 2 ∧
    (bytes_to_nibbles [102, 31]).get? (2 * 1) = Option.some ([102, 31][1] % 16) := by
  refine ⟨(bytes_to_nibbles_spec [102, 31]).1, ?_⟩
  exact ((bytes_to_nibbles_spec [102, 31]).2 1 (by decide)).1

/-! ## Claim C10: `get` leaves the trie unchanged -/

/-- C10: for every trie (open or sealed) and key, `get` leaves the trie
observationally unchanged: the state-transformer form of `get` returns the
pure `get` result together with the unchanged trie, so every subsequent
`get`, `seal` and `is_sealed` answers exactly as before.  (The node-level
`get` pops only the freshly built nibble list, never a node field.) -/
theorem get_leaves_trie_unchanged (t : PatriciaTree) (k : List Nat) :
    t.getOp k = (t.get k, t) ∧
    (t.getOp k).snd.is_sealed = t.is_sealed ∧
    (∀ k2, (t.getOp k).snd.get k2 = t.get k2) ∧
    ∀ enc dig, (t.getOp k).snd.seal enc dig = t.seal enc dig := by
  refine ⟨?_, rfl, fun k2 => rfl, fun enc dig => rfl⟩
  unfold PatriciaTree.getOp PatriciaTree.get
  rw [Node.getMut_fst]

/-! ## Claim C4: mutation after sealing is rejected without effect -/

/-- C4: on a sealed trie every `set` fails with the sealed-mutation error
(`RuntimeError("Already sealed!")`), and the failed attempt changes nothing
observable: the trie state, hence its root hash, every `get` result and
`is_sealed`, are those from before the attempt. -/
theorem sealed_set_rejected (t : PatriciaTree) (k : List Nat) (v : PVal)
    (hs : t.is_sealed = true) :
    (t.setOp k v).fst = .error .alreadySealed ∧
    (t.setOp k v).snd = t ∧
    (t.setOp k v).snd.root.hashOf = t.root.hashOf ∧
    (∀ k2, (t.setOp k v).snd.get k2 = t.get k2) ∧
    (t.setOp k v).snd.is_sealed = true := by
  have hset : t.set k v = .error .alreadySealed := by
    unfold PatriciaTree.set
    rw [hs]
    rfl
  unfold PatriciaTree.setOp
  rw [hset]
  exact ⟨rfl, rfl, rfl, fun k2 => rfl, hs⟩

/-- Witness for `sealed_set_rejected` on a concretely sealed empty trie. -/
theorem sealed_set_rejected_witness :
    sealedEmptyTree.is_sealed = true ∧
    (sealedEmptyTree.setOp [120] (.bytes [121])).fst = .error .alreadySealed ∧
    (sealedEmptyTree.setOp [120] (.bytes [121])).snd.get [120] = .none :=
  ⟨rfl,
   (sealed_set_rejected sealedEmptyTree [120] (.bytes [121]) rfl).1,
   ((sealed_set_rejected sealedEmptyTree [120] (.bytes [121]) rfl).2.2.2.1 [120]).trans rfl⟩

/-! ## Claim C7: prefix independence (concrete scenario) -/

/-- C7: on a fresh trie, `set(b"foo", b"bar")` then `set(b"fabababa", b"hi")`
both succeed; afterwards `get(b"fab")` is absent, `get(b"fabababa")` is
`b"hi"` and `get(b"foo")` is `b"bar"`. -/
theorem prefix_independence_scenario :
    (PatriciaTree.new.set [102, 111, 111] (.bytes [98, 97, 114]) >>= fun t1 =>
     t1.set [102, 97, 98, 97, 98, 97, 98, 97] (.bytes [104, 105]) >>= fun t2 =>
     .ok (t2.get [102, 97, 98],
          t2.get [102, 97, 98, 97, 98, 97, 98, 97],
          t2.get [102, 111, 111])) =
    Except.ok (Datum.none, Datum.some (.bytes [104, 105]),
               Datum.some (.bytes [98, 97, 114])) := rfl

/-! ## Claims C2 and C3: the extension-split defect

`Branch.set` line 71 executes `branch.set(child.path[pos:], child.child)`,
passing the extension node's child *node* as the `data: bytes` argument; the
subtree previously reachable through the extension ends up stored as the data
of a leaf.  Keys below it become unreachable (refuting insertion-order
independence of `get`) and a later `seal` aborts because `rlp.encode` cannot
serialize a node object (refuting insertion-order independence of the root
hash).  The three keys 0x1111, 0x1121, 0x21 trigger the defect when the two
longer keys are inserted first. -/

/-- C2: inserting the mapping {0x1111 ↦ 0x41, 0x1121 ↦ 0x42, 0x21 ↦ 0x43} in
one order and sealing returns a root hash, while inserting the same mapping in
another order makes `seal` fail (the `rlp` encoder receives a node object):
the root hash is not insertion-order independent. -/
theorem seal_order_divergence :
    (∃ tA, (PatriciaTree.new.set bugK1 bugV1 >>= fun t => t.set bugK2 bugV2 >>=
              fun t => t.set bugK3 bugV3) = .ok tA ∧
           tA.seal encode0 digest0 = Option.none) ∧
    ∃ tB, (PatriciaTree.new.set bugK3 bugV3 >>= fun t => t.set bugK1 bugV1 >>=
              fun t => t.set bugK2 bugV2) = .ok tB ∧
          (tB.seal encode0 digest0).isSome = true :=
  ⟨⟨_, rfl, rfl⟩, ⟨_, rfl, rfl⟩⟩

/-- C3: inserting the three pairwise-distinct keys {0x1111, 0x1121, 0x21} in
one order loses the value of 0x1111 (`get` returns absent), while another
insertion order of the same pairs retains it: the final `get` mapping is not
insertion-order independent. -/
theorem get_order_divergence :
    (∃ tA, (PatriciaTree.new.set bugK1 bugV1 >>= fun t => t.set bugK2 bugV2 >>=
              fun t => t.set bugK3 bugV3) = .ok tA ∧
           tA.get bugK1 = Datum.none ∧ tA.get bugK2 = Datum.none ∧
           tA.get bugK3 = Datum.some bugV3) ∧
    ∃ tB, (PatriciaTree.new.set bugK3 bugV3 >>= fun t => t.set bugK1 bugV1 >>=
              fun t => t.set bugK2 bugV2) = .ok tB ∧
          tB.get bugK1 = Datum.some bugV1 ∧ tB.get bugK2 = Datum.some bugV2 ∧
          tB.get bugK3 = Datum.some bugV3 :=
  ⟨⟨_, rfl, rfl, rfl, rfl⟩, ⟨_, rfl, rfl, rfl, rfl⟩⟩

theorem Slots.cloneAll_length : (cs : Slots) → (Slots.cloneAll cs).length = cs.length
  | .nil => rfl
  | .cons hd tl => by simp [Slots.cloneAll, Slots.length, Slots.cloneAll_length tl]

mutual

theorem Node.clone_unsealed : (n : Node) → Node.unsealed (Node.clone n) = true
  | .branch cs _ _ => by
      simp [Node.clone, Node.unsealed, Slots.cloneAll_unsealed cs]
  | .ext _ child _ => by
      simp [Node.clone, Node.unsealed, Node.clone_unsealed child]
  | .leaf _ _ _ => rfl

theorem Slots.cloneAll_unsealed : (cs : Slots) → Slots.unsealedAll (Slots.cloneAll cs) = true
  | .nil => rfl
  | .cons hd tl => by
      simp [Slots.cloneAll, Slots.unsealedAll, OptNode.cloneSlot_unsealed hd,
        Slots.cloneAll_unsealed tl]

theorem OptNode.cloneSlot_unsealed : (c : OptNode) →
    OptNode.unsealedSlot (OptNode.cloneSlot c) = true
  | .none => rfl
  | .some child => Node.clone_unsealed child

end

theorem Node.clone_isBranch (n : Node) : (Node.clone n).isBranch = n.isBranch := by
  cases n <;> rfl

mutual

theorem Node.clone_wf : (n : Node) → Node.wf n = true → Node.wf (Node.clone n) = true
  | .branch cs data h, hw => by
      simp only [Node.wf, Node.clone, Bool.and_eq_true, decide_eq_true_eq] at hw ⊢
      exact ⟨by rw [Slots.cloneAll_length]; exact hw.1, Slots.cloneAll_wf cs hw.2⟩
  | .ext epath child h, hw => by
      simp only [Node.wf, Node.clone, Bool.and_eq_true, decide_eq_true_eq] at hw ⊢
      obtain ⟨⟨⟨h1, h2⟩, h3⟩, h4⟩ := hw
      exact ⟨⟨⟨h1, h2⟩, by rw [Node.clone_isBranch]; exact h3⟩, Node.clone_wf child h4⟩
  | .leaf _ _ _, hw => hw

theorem Slots.cloneAll_wf : (cs : Slots) → Slots.wfAll cs = true →
    Slots.wfAll (Slots.cloneAll cs) = true
  | .nil, _ => rfl
  | .cons hd tl, hw => by
      simp only [Slots.wfAll, Slots.cloneAll, Bool.and_eq_true] at hw ⊢
      exact ⟨OptNode.cloneSlot_wf hd hw.1, Slots.cloneAll_wf tl hw.2⟩

theorem OptNode.cloneSlot_wf : (c : OptNode) → OptNode.wfSlot c = true →
    OptNode.wfSlot (OptNode.cloneSlot c) = true
  | .none, _ => rfl
  | .some child, hw => Node.clone_wf child hw

end

mutual

theorem Node.clone_get : (n : Node) → (p : List Nat) →
    Node.get (Node.clone n) p = Node.get n p
  | .branch _ _ _, [] => rfl
  | .branch cs _ _, i :: rest => Slots.cloneAll_getAt cs i rest
  | .ext epath child _, p => by
      by_cases h1 : p.length < epath.length
      · simp [Node.clone, Node.get, h1]
      · by_cases h2 : p.take epath.length = epath
        · simp [Node.clone, Node.get, h1, h2, Node.clone_get child (p.drop epath.length)]
        · simp [Node.clone, Node.get, h1, h2]
  | .leaf _ _ _, _ => rfl

theorem Slots.cloneAll_getAt : (cs : Slots) → (i : Nat) → (p : List Nat) →
    Slots.getAt (Slots.cloneAll cs) i p = Slots.getAt cs i p
  | .nil, _, _ => rfl
  | .cons hd _, 0, p => OptNode.cloneSlot_getChild hd p
  | .cons _ tl, n + 1, p => Slots.cloneAll_getAt tl n p

theorem OptNode.cloneSlot_getChild : (c : OptNode) → (p : List Nat) →
    OptNode.getChild (OptNode.cloneSlot c) p = OptNode.getChild c p
  | .none, _ => rfl
  | .some child, p => Node.clone_get child p

end

/-! ## Sealing lemmas -/

mutual

theorem Node.seal_stable (enc : List RLPAtom → List Nat) (dig : List Nat → List Nat) :
    (n : Node) → (h : List Nat) → (n' : Node) →
    Node.seal enc dig n = Option.some (h, n') →
    Node.seal enc dig n' = Option.some (h, n')
  | .branch cs data hh, h, n', heq => by
      cases hcs : Slots.sealAll enc dig cs with
      | none => rw [Node.seal, hcs] at heq; simp at heq
      | some pr =>
        obtain ⟨items, cs'⟩ := pr
        rw [Node.seal, hcs] at heq
        have ih := fun hx => Slots.sealAll_stable enc dig cs items cs' hx
        cases data with
        | none =>
            simp at heq
            obtain ⟨hh1, hn⟩ := heq
            subst hn
            rw [Node.seal, ih hcs]
            simp [hh1]
        | some v =>
            cases v with
            | bytes b =>
                simp at heq
                obtain ⟨hh1, hn⟩ := heq
                subst hn
                rw [Node.seal, ih hcs]
                simp [hh1]
            | node m => simp at heq
  | .ext epath child hh, h, n', heq => by
      cases hch : Node.seal enc dig child with
      | none => rw [Node.seal, hch] at heq; simp at heq
      | some pr =>
        obtain ⟨ch, child'⟩ := pr
        rw [Node.seal, hch] at heq
        simp at heq
        obtain ⟨hh1, hn⟩ := heq
        subst hn
        rw [Node.seal, Node.seal_stable enc dig child ch child' hch]
        simp [hh1]
  | .leaf suffix data hh, h, n', heq => by
      cases data with
      | bytes b =>
          rw [Node.seal] at heq
          simp at heq
          obtain ⟨hh1, hn⟩ := heq
          subst hn
          rw [Node.seal]
          simp [hh1]
      | node m => rw [Node.seal] at heq; simp at heq

theorem Slots.sealAll_stable (enc : List RLPAtom → List Nat) (dig : List Nat → List Nat) :
    (cs : Slots) → (items : List RLPAtom) → (cs' : Slots) →
    Slots.sealAll enc dig cs = Option.some (items, cs') →
    Slots.sealAll enc dig cs' = Option.some (items, cs')
  | .nil, items, cs', heq => by
      rw [Slots.sealAll] at heq
      simp at heq
      obtain ⟨h1, h2⟩ := heq
      subst h1; subst h2
      rfl
  | .cons hd tl, items, cs', heq => by
      cases hhd : OptNode.sealSlot enc dig hd with
      | none => rw [Slots.sealAll, hhd] at heq; simp at heq
      | some pr1 =>
        obtain ⟨item, hd'⟩ := pr1
        cases htl : Slots.sealAll enc dig tl with
        | none => rw [Slots.sealAll, hhd, htl] at heq; simp at heq
        | some pr2 =>
          obtain ⟨items2, tl'⟩ := pr2
          rw [Slots.sealAll, hhd, htl] at heq
          simp at heq
          obtain ⟨hi, hc⟩ := heq
          subst hi; subst hc
          have ih1 := OptNode.sealSlot_stable enc dig hd item hd' hhd
          have ih2 := Slots.sealAll_stable enc dig tl items2 tl' htl
          rw [Slots.sealAll, ih1, ih2]
          rfl

theorem OptNode.sealSlot_stable (enc : List RLPAtom → List Nat) (dig : List Nat → List Nat) :
    (c : OptNode) → (item : RLPAtom) → (c' : OptNode) →
    OptNode.sealSlot enc dig c = Option.some (item, c') →
    OptNode.sealSlot enc dig c' = Option.some (item, c')
  | .none, item, c', heq => by
      rw [OptNode.sealSlot] at heq
      simp at heq
      obtain ⟨h1, h2⟩ := heq
      subst h1; subst h2
      rfl
  | .some child, item, c', heq => by
      cases hch : Node.seal enc dig child with
      | none => rw [OptNode.sealSlot, hch] at heq; simp at heq
      | some pr =>
        obtain ⟨ch, child'⟩ := pr
        rw [OptNode.sealSlot, hch] at heq
        simp at heq
        obtain ⟨hi, hc⟩ := heq
        subst hi; subst hc
        rw [OptNode.sealSlot, Node.seal_stable enc dig child ch child' hch]
        rfl

end

mutual

theorem Node.seal_fst_eq_spec (enc : List RLPAtom → List Nat) (dig : List Nat → List Nat) :
    (n : Node) → (Node.seal enc dig n).map Prod.fst = Node.sealSpec enc dig n
  | .branch cs data hh => by
      rw [Node.seal, Node.sealSpec]
      cases hcs : Slots.sealAll enc dig cs with
      | none =>
          have ih := Slots.sealAll_fst_eq_spec enc dig cs
          rw [hcs] at ih
          simp at ih
          simp [← ih]
      | some pr =>
          obtain ⟨items, cs'⟩ := pr
          have ih := Slots.sealAll_fst_eq_spec enc dig cs
          rw [hcs] at ih
          simp at ih
          rw [← ih]
          cases data with
          | none => simp
          | some v => cases v with
            | bytes b => simp
            | node m => simp
  | .ext epath child hh => by
      rw [Node.seal, Node.sealSpec]
      cases hch : Node.seal enc dig child with
      | none =>
          have ih := Node.seal_fst_eq_spec enc dig child
          rw [hch] at ih
          simp at ih
          simp [← ih]
      | some pr =>
          obtain ⟨ch, child'⟩ := pr
          have ih := Node.seal_fst_eq_spec enc dig child
          rw [hch] at ih
          simp at ih
          rw [← ih]
          simp
  | .leaf suffix data hh => by
      cases data with
      | bytes b => rw [Node.seal, Node.sealSpec]; rfl
      | node m => rw [Node.seal, Node.sealSpec]; rfl

theorem Slots.sealAll_fst_eq_spec (enc : List RLPAtom → List Nat) (dig : List Nat → List Nat) :
    (cs : Slots) → (Slots.sealAll enc dig cs).map Prod.fst = Slots.sealSpecAll enc dig cs
  | .nil => rfl
  | .cons hd tl => by
      rw [Slots.sealAll, Slots.sealSpecAll]
      cases hhd : OptNode.sealSlot enc dig hd with
      | none =>
          have ih := OptNode.sealSlot_fst_eq_spec enc dig hd
          rw [hhd] at ih
          simp at ih
          simp [← ih]
      | some pr1 =>
          obtain ⟨item, hd'⟩ := pr1
          have ih := OptNode.sealSlot_fst_eq_spec enc dig hd
          rw [hhd] at ih
          simp at ih
          rw [← ih]
          cases htl : Slots.sealAll enc dig tl with
          | none =>
              have ih2 := Slots.sealAll_fst_eq_spec enc dig tl
              rw [htl] at ih2
              simp at ih2
              simp [← ih2]
          | some pr2 =>
              obtain ⟨items2, tl'⟩ := pr2
              have ih2 := Slots.sealAll_fst_eq_spec enc dig tl
              rw [htl] at ih2
              simp at ih2
              rw [← ih2]
              simp

theorem OptNode.sealSlot_fst_eq_spec (enc : List RLPAtom → List Nat) (dig : List Nat → List Nat) :
    (c : OptNode) → (OptNode.sealSlot enc dig c).map Prod.fst = OptNode.sealSpecSlot enc dig c
  | .none => rfl
  | .some child => by
      rw [OptNode.sealSlot, OptNode.sealSpecSlot]
      cases hch : Node.seal enc dig child with
      | none =>
          have ih := Node.seal_fst_eq_spec enc dig child
          rw [hch] at ih
          simp at ih
          simp [← ih]
      | some pr =>
          obtain ⟨ch, child'⟩ := pr
          have ih := Node.seal_fst_eq_spec enc dig child
          rw [hch] at ih
          simp at ih
          rw [← ih]
          simp

end

mutual

theorem Node.seal_allSealed (enc : List RLPAtom → List Nat) (dig : List Nat → List Nat) :
    (n : Node) → (h : List Nat) → (n' : Node) →
    Node.seal enc dig n = Option.some (h, n') → Node.allSealed n' = true
  | .branch cs data hh, h, n', heq => by
      cases hcs : Slots.sealAll enc dig cs with
      | none => rw [Node.seal, hcs] at heq; simp at heq
      | some pr =>
        obtain ⟨items, cs'⟩ := pr
        rw [Node.seal, hcs] at heq
        cases data with
        | none =>
            simp at heq
            obtain ⟨_, hn⟩ := heq
            subst hn
            simp [Node.allSealed, Slots.sealAll_allSealed enc dig cs items cs' hcs]
        | some v =>
            cases v with
            | bytes b =>
                simp at heq
                obtain ⟨_, hn⟩ := heq
                subst hn
                simp [Node.allSealed, Slots.sealAll_allSealed enc dig cs items cs' hcs]
            | node m => simp at heq
  | .ext epath child hh, h, n', heq => by
      cases hch : Node.seal enc dig child with
      | none => rw [Node.seal, hch] at heq; simp at heq
      | some pr =>
        obtain ⟨ch, child'⟩ := pr
        rw [Node.seal, hch] at heq
        simp at heq
        obtain ⟨_, hn⟩ := heq
        subst hn
        simp [Node.allSealed, Node.seal_allSealed enc dig child ch child' hch]
  | .leaf suffix data hh, h, n', heq => by
      cases data with
      | bytes b =>
          rw [Node.seal] at heq
          simp at heq
          obtain ⟨_, hn⟩ := heq
          subst hn
          simp [Node.allSealed]
      | node m => rw [Node.seal] at heq; simp at heq

theorem Slots.sealAll_allSealed (enc : List RLPAtom → List Nat) (dig : List Nat → List Nat) :
    (cs : Slots) → (items : List RLPAtom) → (cs' : Slots) →
    Slots.sealAll enc dig cs = Option.some (items, cs') → Slots.allSealedAll cs' = true
  | .nil, items, cs', heq => by
      rw [Slots.sealAll] at heq
      simp at heq
      obtain ⟨_, h2⟩ := heq
      subst h2
      rfl
  | .cons hd tl, items, cs', heq => by
      cases hhd : OptNode.sealSlot enc dig hd with
      | none => rw [Slots.sealAll, hhd] at heq; simp at heq
      | some pr1 =>
        obtain ⟨item, hd'⟩ := pr1
        cases htl : Slots.sealAll enc dig tl with
        | none => rw [Slots.sealAll, hhd, htl] at heq; simp at heq
        | some pr2 =>
          obtain ⟨items2, tl'⟩ := pr2
          rw [Slots.sealAll, hhd, htl] at heq
          simp at heq
          obtain ⟨_, hc⟩ := heq
          subst hc
          simp [Slots.allSealedAll,
            OptNode.sealSlot_allSealed enc dig hd item hd' hhd,
            Slots.sealAll_allSealed enc dig tl items2 tl' htl]

theorem OptNode.sealSlot_allSealed (enc : List RLPAtom → List Nat) (dig : List Nat → List Nat) :
    (c : OptNode) → (item : RLPAtom) → (c' : OptNode) →
    OptNode.sealSlot enc dig c = Option.some (item, c') → OptNode.allSealedSlot c' = true
  | .none, item, c', heq => by
      rw [OptNode.sealSlot] at heq
      simp at heq
      obtain ⟨_, h2⟩ := heq
      subst h2
      rfl
  | .some child, item, c', heq => by
      cases hch : Node.seal enc dig child with
      | none => rw [OptNode.sealSlot, hch] at heq; simp at heq
      | some pr =>
        obtain ⟨ch, child'⟩ := pr
        rw [OptNode.sealSlot, hch] at heq
        simp at heq
        obtain ⟨_, hc⟩ := heq
        subst hc
        simp [OptNode.allSealedSlot, Node.seal_allSealed enc dig child ch child' hch]

end

/-! ## Claim C8: `seal` is idempotent -/

/-- C8: if sealing a trie returns hash `h` and leaves the trie in state `t'`,
then sealing again returns the same hash `h` and leaves every node's cached
hash exactly as the first call established it (the state `t'` is a fixed
point).  The source recomputes rather than consulting the cache, but the
recomputation is deterministic in the node contents, which sealing does not
change. -/
theorem seal_idempotent (enc : List RLPAtom → List Nat) (dig : List Nat → List Nat)
    (t : PatriciaTree) (h : List Nat) (t' : PatriciaTree)
    (hseal : t.seal enc dig = Option.some (h, t')) :
    t'.seal enc dig = Option.some (h, t') := by
  unfold PatriciaTree.seal at hseal ⊢
  cases hr : t.root.seal enc dig with
  | none => rw [hr] at hseal; simp at hseal
  | some pr =>
      obtain ⟨h2, r'⟩ := pr
      rw [hr] at hseal
      simp at hseal
      obtain ⟨hh, ht⟩ := hseal
      subst hh
      rw [← ht]
      rw [Node.seal_stable enc dig t.root h2 r' hr]
      rfl

/-- Witness for `seal_idempotent`: sealing the empty trie twice. -/
theorem seal_idempotent_witness :
    PatriciaTree.new.seal encode0 digest0 =
      Option.some (emptySealHash, sealedEmptyTree) ∧
    sealedEmptyTree.seal encode0 digest0 =
      Option.some (emptySealHash, sealedEmptyTree) :=
  ⟨rfl, seal_idempotent encode0 digest0 PatriciaTree.new emptySealHash sealedEmptyTree rfl⟩

/-! ## Claim C5: the sealing protocol computes the specified hash -/

/-- C5: for every node, `seal` computes exactly the hash the spec prescribes
(`Node.sealSpec`, modelled from the spec: a Leaf hashes the pair
(suffix, value), an Extension the pair (path, child seal hash), a Branch the
17-tuple of the 16 child slots — child seal hash or zero sentinel — followed
by the stored value or zero sentinel, each via `dig (enc content)`, children
before parent), and a successful `seal` leaves every reachable node sealed. -/
theorem seal_computes_spec_hash (enc : List RLPAtom → List Nat)
    (dig : List Nat → List Nat) (n : Node) :
    (Node.seal enc dig n).map Prod.fst = Node.sealSpec enc dig n ∧
    ∀ h n', Node.seal enc dig n = Option.some (h, n') → Node.allSealed n' = true :=
  ⟨Node.seal_fst_eq_spec enc dig n,
   fun h n' => Node.seal_allSealed enc dig n h n'⟩

/-- Witness for `seal_computes_spec_hash` on the empty root branch. -/
theorem seal_computes_spec_hash_witness :
    (Node.seal encode0 digest0 Node.emptyBranch).map Prod.fst =
      Node.sealSpec encode0 digest0 Node.emptyBranch ∧
    Node.allSealed sealedEmptyTree.root = true :=
  ⟨(seal_computes_spec_hash encode0 digest0 Node.emptyBranch).1,
   (seal_computes_spec_hash encode0 digest0 Node.emptyBranch).2
     emptySealHash sealedEmptyTree.root rfl⟩

/-! ## List and slot lemmas for the insertion proof -/

theorem commonPrefixLen_le_left : (a b : List Nat) → commonPrefixLen a b ≤ a.length
  | [], _ => Nat.le_refl 0
  | _ :: _, [] => Nat.zero_le _
  | x :: xs, y :: ys => by
      rw [commonPrefixLen]
      split
      · simpa using commonPrefixLen_le_left xs ys
      · exact Nat.zero_le _

theorem commonPrefixLen_le_right : (a b : List Nat) → commonPrefixLen a b ≤ b.length
  | [], _ => Nat.zero_le _
  | _ :: _, [] => Nat.le_refl 0
  | x :: xs, y :: ys => by
      rw [commonPrefixLen]
      split
      · simpa using commonPrefixLen_le_right xs ys
      · exact Nat.zero_le _

theorem commonPrefixLen_take : (a b : List Nat) →
    a.take (commonPrefixLen a b) = b.take (commonPrefixLen a b)
  | [], b => by simp [commonPrefixLen]
  | _ :: _, [] => by simp [commonPrefixLen]
  | x :: xs, y :: ys => by
      rw [commonPrefixLen]
      split
      · next hxy => simp [List.take_succ_cons, hxy, commonPrefixLen_take xs ys]
      · simp

theorem commonPrefixLen_drop_ne : (a b : List Nat) → (x y : Nat) → (xs ys : List Nat) →
    a.drop (commonPrefixLen a b) = x :: xs → b.drop (commonPrefixLen a b) = y :: ys →
    x ≠ y
  | [], b, x, y, xs, ys, ha, hb => by simp [commonPrefixLen] at ha
  | _ :: _, [], x, y, xs, ys, ha, hb => by simp [commonPrefixLen] at hb
  | p :: ps, q :: qs, x, y, xs, ys, ha, hb => by
      rw [commonPrefixLen] at ha hb
      by_cases hpq : p = q
      · rw [if_pos hpq] at ha hb
        simp only [List.drop_succ_cons] at ha hb
        exact commonPrefixLen_drop_ne ps qs x y xs ys ha hb
      · rw [if_neg hpq] at ha hb
        simp only [List.drop_zero] at ha hb
        cases ha; cases hb
        exact hpq

theorem eq_of_commonPrefixLen_full (a b : List Nat)
    (h1 : commonPrefixLen a b = b.length) (h2 : a.drop (commonPrefixLen a b) = []) :
    a = b := by
  have hlen : a.length ≤ commonPrefixLen a b := by
    have := List.drop_eq_nil_iff.mp h2
    omega
  have hlen2 : a.length = commonPrefixLen a b :=
    Nat.le_antisymm hlen (commonPrefixLen_le_left a b)
  calc a = a.take (commonPrefixLen a b) := by rw [← hlen2, List.take_length]
    _ = b.take (commonPrefixLen a b) := commonPrefixLen_take a b
    _ = b := by rw [h1, List.take_length]

theorem take_eq_of_commonPrefixLen_right (a b : List Nat)
    (h : commonPrefixLen a b = b.length) : a.take b.length = b := by
  rw [← h, commonPrefixLen_take a b, h, List.take_length]

theorem validNibs_iff (p : List Nat) : validNibs p = true ↔ ∀ x ∈ p, x < 16 := by
  induction p with
  | nil => simp [validNibs]
  | cons x xs ih => simp [validNibs, ih]

theorem validNibs_sub (p q : List Nat) (hsub : ∀ x ∈ q, x ∈ p)
    (hp : validNibs p = true) : validNibs q = true :=
  (validNibs_iff q).mpr fun x hx => (validNibs_iff p).mp hp x (hsub x hx)

theorem validNibs_drop (p : List Nat) (n : Nat) (hp : validNibs p = true) :
    validNibs (p.drop n) = true :=
  validNibs_sub p _ (fun _ hx => List.mem_of_mem_drop hx) hp

theorem validNibs_take (p : List Nat) (n : Nat) (hp : validNibs p = true) :
    validNibs (p.take n) = true :=
  validNibs_sub p _ (fun _ hx => List.mem_of_mem_take hx) hp

theorem Slots.mkNone_length : (n : Nat) → (Slots.mkNone n).length = n
  | 0 => rfl
  | n + 1 => by simp [Slots.mkNone, Slots.length, Slots.mkNone_length n]

theorem Slots.get_mkNone : (n i : Nat) → Slots.get (Slots.mkNone n) i = .none
  | 0, _ => rfl
  | _ + 1, 0 => rfl
  | n + 1, i + 1 => Slots.get_mkNone n i

theorem Slots.mkNone_wfAll : (n : Nat) → Slots.wfAll (Slots.mkNone n) = true
  | 0 => rfl
  | n + 1 => by simp [Slots.mkNone, Slots.wfAll, OptNode.wfSlot, Slots.mkNone_wfAll n]

theorem Slots.mkNone_unsealedAll : (n : Nat) → Slots.unsealedAll (Slots.mkNone n) = true
  | 0 => rfl
  | n + 1 => by
      simp [Slots.mkNone, Slots.unsealedAll, OptNode.unsealedSlot, Slots.mkNone_unsealedAll n]

theorem Slots.getAt_eq : (cs : Slots) → (i : Nat) → (p : List Nat) →
    Slots.getAt cs i p = OptNode.getChild (Slots.get cs i) p
  | .nil, _, _ => rfl
  | .cons _ _, 0, _ => rfl
  | .cons _ tl, i + 1, p => Slots.getAt_eq tl i p

theorem Slots.placeNode_ok : (cs : Slots) → (i : Nat) → (nd : Node) → i < cs.length →
    ∃ cs', Slots.placeNode cs i nd = .ok cs' ∧ cs'.length = cs.length ∧
      Slots.get cs' i = .some nd ∧ (∀ j, j ≠ i → Slots.get cs' j = Slots.get cs j) ∧
      (Slots.wfAll cs = true → Node.wf nd = true → Slots.wfAll cs' = true) ∧
      (Slots.unsealedAll cs = true → Node.unsealed nd = true →
        Slots.unsealedAll cs' = true)
  | .nil, i, nd, hi => by simp [Slots.length] at hi
  | .cons hd tl, 0, nd, hi => by
      refine ⟨.cons (.some nd) tl, rfl, rfl, rfl, ?_, ?_, ?_⟩
      · intro j hj
        match j with
        | 0 => exact absurd rfl hj
        | j + 1 => rfl
      · intro hw hnd
        simp only [Slots.wfAll, Bool.and_eq_true, OptNode.wfSlot] at hw ⊢
        exact ⟨hnd, hw.2⟩
      · intro hu hnd
        simp only [Slots.unsealedAll, Bool.and_eq_true, OptNode.unsealedSlot] at hu ⊢
        exact ⟨hnd, hu.2⟩
  | .cons hd tl, i + 1, nd, hi => by
      have hi' : i < tl.length := by simpa [Slots.length] using hi
      obtain ⟨tl', h1, h2, h3, h4, h5, h6⟩ := Slots.placeNode_ok tl i nd hi'
      refine ⟨.cons hd tl', ?_, ?_, h3, ?_, ?_, ?_⟩
      · rw [Slots.placeNode, h1]
        rfl
      · simp [Slots.length, h2]
      · intro j hj
        match j with
        | 0 => rfl
        | j + 1 => exact h4 j (fun he => hj (by rw [he]))
      · intro hw hnd
        simp only [Slots.wfAll, Bool.and_eq_true] at hw ⊢
        exact ⟨hw.1, h5 hw.2 hnd⟩
      · intro hu hnd
        simp only [Slots.unsealedAll, Bool.and_eq_true] at hu ⊢
        exact ⟨hu.1, h6 hu.2 hnd⟩

theorem Slots.setAt_of_get_none : (cs : Slots) → (i : Nat) → (p : List Nat) → (v : PVal) →
    Slots.get cs i = .none →
    Slots.setAt cs i p v = Slots.placeNode cs i (.leaf p v .none)
  | .nil, _, _, _, _ => rfl
  | .cons hd tl, 0, p, v, hg => by
      have : hd = .none := hg
      subst this
      rfl
  | .cons hd tl, i + 1, p, v, hg => by
      have hg' : Slots.get tl i = .none := hg
      rw [Slots.setAt, Slots.placeNode, Slots.setAt_of_get_none tl i p v hg']

theorem Slots.placeNode_err : (cs : Slots) → (i : Nat) → (nd : Node) →
    ¬ i < cs.length → Slots.placeNode cs i nd = .error .indexOut
  | .nil, _, _, _ => rfl
  | .cons hd tl, 0, nd, hlt => absurd (Nat.succ_pos tl.length) hlt
  | .cons hd tl, i + 1, nd, hlt => by
      rw [Slots.placeNode, Slots.placeNode_err tl i nd (by simp [Slots.length] at hlt ⊢; omega)]
      rfl

/-- Certification of `mkSplitBranch` against the real insertion code: whenever
the two paths do not begin with the same nibble (as the maximality of the
common-prefix loop guarantees at every call site), `mkSplitBranch p1 v1 p2 v2`
is exactly `branch = Branch(); branch.set(p1, v1); branch.set(p2, v2)`. -/
theorem mkSplitBranch_models_two_sets (p1 : List Nat) (v1 : PVal) (p2 : List Nat)
    (v2 : PVal) (hne : ∀ r j, p1.head? = Option.some r → p2.head? = Option.some j → r ≠ j) :
    mkSplitBranch p1 v1 p2 v2 =
      (Node.set Node.emptyBranch p1 v1 >>= fun b1 => Node.set b1 p2 v2) := by
  match p1, p2 with
  | [], [] => rfl
  | [], j :: jt =>
      show _ = Node.set (.branch (Slots.mkNone 16) (.some v1) .none) (j :: jt) v2
      rw [mkSplitBranch, Node.set]
      simp only [Option.isSome_none, Bool.false_eq_true, if_false]
      rw [Slots.setAt_of_get_none _ _ _ _ (Slots.get_mkNone 16 j)]
  | r :: rt, [] =>
      show _ = (Node.set (.branch (Slots.mkNone 16) .none .none) (r :: rt) v1 >>=
        fun b1 => Node.set b1 [] v2)
      rw [mkSplitBranch, Node.set]
      simp only [Option.isSome_none, Bool.false_eq_true, if_false]
      rw [Slots.setAt_of_get_none _ _ _ _ (Slots.get_mkNone 16 r)]
      cases hpl : Slots.placeNode (Slots.mkNone 16) r (.leaf rt v1 .none) with
      | error e => rfl
      | ok cs1 => rfl
  | r :: rt, j :: jt =>
      have hrj : r ≠ j := hne r j rfl rfl
      show _ = (Node.set (.branch (Slots.mkNone 16) .none .none) (r :: rt) v1 >>=
        fun b1 => Node.set b1 (j :: jt) v2)
      rw [mkSplitBranch, Node.set]
      simp only [Option.isSome_none, Bool.false_eq_true, if_false]
      rw [Slots.setAt_of_get_none _ _ _ _ (Slots.get_mkNone 16 r)]
      by_cases hr16 : r < 16
      · obtain ⟨cs1', heq, hlen, hgetr, hgetj, _, _⟩ :=
          Slots.placeNode_ok (Slots.mkNone 16) r (.leaf rt v1 .none)
            (by rw [Slots.mkNone_length]; exact hr16)
        rw [heq]
        have hj : Slots.get cs1' j = .none := by
          rw [hgetj j (fun he => hrj he.symm), Slots.get_mkNone]
        show (Slots.placeNode cs1' j (.leaf jt v2 .none) >>= fun cs2 =>
          Except.ok (Node.branch cs2 .none .none)) =
          Node.set (.branch cs1' .none .none) (j :: jt) v2
        rw [Node.set]
        simp only [Option.isSome_none, Bool.false_eq_true, if_false]
        rw [Slots.setAt_of_get_none _ _ _ _ hj]
      · rw [Slots.placeNode_err _ _ _ (by rw [Slots.mkNone_length]; exact hr16)]
        rfl

theorem mkSplitBranch_ok (p1 : List Nat) (v1 : PVal) (p2 : List Nat) (v2 : PVal)
    (h1 : validNibs p1 = true) (h2 : validNibs p2 = true)
    (hne : ∀ r j, p1.head? = Option.some r → p2.head? = Option.some j → r ≠ j)
    (hnotboth : ¬ (p1 = [] ∧ p2 = [])) :
    ∃ nb, mkSplitBranch p1 v1 p2 v2 = .ok nb ∧ Node.get nb p1 = .some v1 ∧
      Node.wf nb = true ∧ Node.unsealed nb = true ∧ Node.isBranch nb = true := by
  match p1, p2 with
  | [], [] => exact absurd ⟨rfl, rfl⟩ hnotboth
  | [], j :: jt =>
      simp only [validNibs, Bool.and_eq_true, decide_eq_true_eq] at h2
      obtain ⟨cs', heq, hlen, hgetj, hgeto, hwf, hun⟩ :=
        Slots.placeNode_ok (Slots.mkNone 16) j (.leaf jt v2 .none)
          (by rw [Slots.mkNone_length]; exact h2.1)
      refine ⟨.branch cs' (.some v1) .none, ?_, rfl, ?_, ?_, rfl⟩
      · rw [mkSplitBranch, heq]
        rfl
      · simp only [Node.wf, Bool.and_eq_true, decide_eq_true_eq]
        refine ⟨by rw [hlen, Slots.mkNone_length], ?_⟩
        exact hwf (Slots.mkNone_wfAll 16) (by simpa [Node.wf] using h2.2)
      · simp only [Node.unsealed, Bool.and_eq_true, Option.isNone_none, true_and]
        exact hun (Slots.mkNone_unsealedAll 16) rfl
  | r :: rt, [] =>
      simp only [validNibs, Bool.and_eq_true, decide_eq_true_eq] at h1
      obtain ⟨cs', heq, hlen, hgetr, hgeto, hwf, hun⟩ :=
        Slots.placeNode_ok (Slots.mkNone 16) r (.leaf rt v1 .none)
          (by rw [Slots.mkNone_length]; exact h1.1)
      refine ⟨.branch cs' (.some v2) .none, ?_, ?_, ?_, ?_, rfl⟩
      · rw [mkSplitBranch, heq]
        rfl
      · show Slots.getAt cs' r rt = .some v1
        rw [Slots.getAt_eq, hgetr]
        simp [OptNode.getChild, Node.get]
      · simp only [Node.wf, Bool.and_eq_true, decide_eq_true_eq]
        refine ⟨by rw [hlen, Slots.mkNone_length], ?_⟩
        exact hwf (Slots.mkNone_wfAll 16) (by simpa [Node.wf] using h1.2)
      · simp only [Node.unsealed, Bool.and_eq_true, Option.isNone_none, true_and]
        exact hun (Slots.mkNone_unsealedAll 16) rfl
  | r :: rt, j :: jt =>
      have hrj : r ≠ j := hne r j rfl rfl
      simp only [validNibs, Bool.and_eq_true, decide_eq_true_eq] at h1 h2
      obtain ⟨cs1, heq1, hlen1, hgetr1, hgeto1, hwf1, hun1⟩ :=
        Slots.placeNode_ok (Slots.mkNone 16) r (.leaf rt v1 .none)
          (by rw [Slots.mkNone_length]; exact h1.1)
      obtain ⟨cs2, heq2, hlen2, hgetj2, hgeto2, hwf2, hun2⟩ :=
        Slots.placeNode_ok cs1 j (.leaf jt v2 .none)
          (by rw [hlen1, Slots.mkNone_length]; exact h2.1)
      refine ⟨.branch cs2 .none .none, ?_, ?_, ?_, ?_, rfl⟩
      · rw [mkSplitBranch, heq1]
        show Slots.placeNode cs1 j (.leaf jt v2 .none) >>= _ = _
        rw [heq2]
        rfl
      · show Slots.getAt cs2 r rt = .some v1
        rw [Slots.getAt_eq, hgeto2 r hrj, hgetr1]
        simp [OptNode.getChild, Node.get]
      · simp only [Node.wf, Bool.and_eq_true, decide_eq_true_eq]
        refine ⟨by rw [hlen2, hlen1, Slots.mkNone_length], ?_⟩
        refine hwf2 ?_ (by simpa [Node.wf] using h2.2)
        exact hwf1 (Slots.mkNone_wfAll 16) (by simpa [Node.wf] using h1.2)
      · simp only [Node.unsealed, Bool.and_eq_true, Option.isNone_none, true_and]
        exact hun2 (hun1 (Slots.mkNone_unsealedAll 16) rfl) rfl

theorem ext_wrap_get (p base : List Nat) (nb : Node) (v : PVal)
    (hget : Node.get nb (p.drop (commonPrefixLen p base)) = .some v) :
    0 < commonPrefixLen p base →
    Node.get (.ext (base.take (commonPrefixLen p base)) nb .none) p = .some v := by
  intro h0
  have hle : commonPrefixLen p base ≤ p.length := commonPrefixLen_le_left p base
  have hlb : commonPrefixLen p base ≤ base.length := commonPrefixLen_le_right p base
  rw [Node.get, List.length_take]
  have hmin : min (commonPrefixLen p base) base.length = commonPrefixLen p base := by
    omega
  rw [hmin, if_neg (by omega), if_pos]
  · exact hget
  · rw [commonPrefixLen_take p base]

theorem ext_wrap_wf (p base : List Nat) (nb : Node)
    (hvb : validNibs base = true) (hwf : Node.wf nb = true)
    (hbr : Node.isBranch nb = true) :
    0 < commonPrefixLen p base →
    Node.wf (.ext (base.take (commonPrefixLen p base)) nb .none) = true := by
  intro h0
  have hlb : commonPrefixLen p base ≤ base.length := commonPrefixLen_le_right p base
  simp only [Node.wf, Bool.and_eq_true, decide_eq_true_eq]
  refine ⟨⟨⟨?_, validNibs_take base _ hvb⟩, hbr⟩, hwf⟩
  have hlt : (base.take (commonPrefixLen p base)).length = commonPrefixLen p base := by
    rw [List.length_take]
    omega
  intro hnil
  rw [hnil] at hlt
  simp at hlt
  omega

theorem ext_wrap_unsealed (q : List Nat) (nb : Node)
    (hun : Node.unsealed nb = true) :
    Node.unsealed (.ext q nb .none) = true := by
  simp only [Node.unsealed, Bool.and_eq_true, Option.isNone_none, true_and]
  exact hun

/-- The master induction for insertion: on any well-formed, fully unsealed
tree, `set` with a valid nibble path succeeds, an immediate `get` of that path
returns the value just stored, and well-formedness and unsealedness are
preserved.  Stated for the three mutually recursive functions at once,
by induction on an upper bound on the path length. -/
theorem set_roundtrip_aux : ∀ f : Nat,
    (∀ (p : List Nat) (n : Node) (v : PVal), p.length < f → Node.wf n = true →
      Node.unsealed n = true → Node.isBranch n = true → validNibs p = true →
      ∃ n', Node.set n p v = .ok n' ∧ Node.get n' p = .some v ∧
        Node.wf n' = true ∧ Node.unsealed n' = true ∧ Node.isBranch n' = true) ∧
    (∀ (p : List Nat) (cs : Slots) (i : Nat) (v : PVal), p.length < f →
      i < cs.length → Slots.wfAll cs = true → Slots.unsealedAll cs = true →
      validNibs p = true →
      ∃ cs', Slots.setAt cs i p v = .ok cs' ∧ Slots.getAt cs' i p = .some v ∧
        cs'.length = cs.length ∧ Slots.wfAll cs' = true ∧
        Slots.unsealedAll cs' = true) ∧
    (∀ (p : List Nat) (child : Node) (v : PVal), p.length < f →
      Node.wf child = true → Node.unsealed child = true → validNibs p = true →
      ∃ c', Node.insertChild child p v = .ok (.some c') ∧ Node.get c' p = .some v ∧
        Node.wf c' = true ∧ Node.unsealed c' = true) := by
  intro f
  induction f with
  | zero => exact ⟨fun p _ _ h => absurd h (Nat.not_lt_zero _),
      fun p _ _ _ h => absurd h (Nat.not_lt_zero _),
      fun p _ _ h => absurd h (Nat.not_lt_zero _)⟩
  | succ f ih =>
    obtain ⟨IHP, IHQ, _⟩ := ih
    -- Child statement at fuel f+1
    have hR : ∀ (p : List Nat) (child : Node) (v : PVal), p.length < f + 1 →
        Node.wf child = true → Node.unsealed child = true → validNibs p = true →
        ∃ c', Node.insertChild child p v = .ok (.some c') ∧
          Node.get c' p = .some v ∧ Node.wf c' = true ∧ Node.unsealed c' = true := by
      intro p child v hlen hwf hun hvp
      cases child with
      | branch bcs bdata bh =>
          simp only [Node.wf, Bool.and_eq_true, decide_eq_true_eq] at hwf
          simp only [Node.unsealed, Bool.and_eq_true] at hun
          have hbh : bh = Option.none := Option.isNone_iff_eq_none.mp hun.1
          subst hbh
          match p with
          | [] =>
              refine ⟨.branch bcs (.some v) .none, by rw [Node.insertChild]; rfl,
                rfl, ?_, ?_⟩
              · simp only [Node.wf, Bool.and_eq_true, decide_eq_true_eq]
                exact hwf
              · simp only [Node.unsealed, Bool.and_eq_true, Option.isNone_none,
                  true_and]
                exact hun.2
          | i :: rest =>
              simp only [validNibs, Bool.and_eq_true, decide_eq_true_eq] at hvp
              have hrest : rest.length < f := by
                simp only [List.length_cons] at hlen
                omega
              obtain ⟨cs', hset, hget, hlen', hwf', hun'⟩ :=
                IHQ rest bcs i v hrest (by rw [hwf.1]; exact hvp.1) hwf.2 hun.2 hvp.2
              refine ⟨.branch cs' bdata .none, ?_, hget, ?_, ?_⟩
              · rw [Node.insertChild]
                simp only [Option.isSome_none, Bool.false_eq_true, if_false]
                rw [hset]
                rfl
              · simp only [Node.wf, Bool.and_eq_true, decide_eq_true_eq]
                exact ⟨by rw [hlen']; exact hwf.1, hwf'⟩
              · simp only [Node.unsealed, Bool.and_eq_true, Option.isNone_none,
                  true_and]
                exact hun'
      | ext epath echild eh =>
          simp only [Node.wf, Bool.and_eq_true, decide_eq_true_eq] at hwf
          obtain ⟨⟨⟨hep, hvep⟩, hbr⟩, hwfe⟩ := hwf
          simp only [Node.unsealed, Bool.and_eq_true] at hun
          have heh : eh = Option.none := Option.isNone_iff_eq_none.mp hun.1
          subst heh
          by_cases hpos : epath.length = commonPrefixLen p epath
          · -- the extension path is fully consumed: recurse into its child
            have hpos1 : 1 ≤ commonPrefixLen p epath := by
              rw [← hpos]
              cases hepc : epath with
              | nil => exact absurd hepc hep
              | cons a as => simp
            have hple : commonPrefixLen p epath ≤ p.length :=
              commonPrefixLen_le_left p epath
            have hdl : (p.drop (commonPrefixLen p epath)).length < f := by
              rw [List.length_drop]
              omega
            obtain ⟨ec', hset, hget, hwf', hun', hbr'⟩ :=
              IHP (p.drop (commonPrefixLen p epath)) echild v hdl hwfe hun.2 hbr
                (validNibs_drop p _ hvp)
            refine ⟨.ext epath ec' .none, ?_, ?_, ?_, ?_⟩
            · rw [Node.insertChild]
              rw [if_pos hpos, hset]
              rfl
            · rw [Node.get]
              have hnl : ¬ p.length < epath.length := by omega
              rw [if_neg hnl,
                if_pos (take_eq_of_commonPrefixLen_right p epath hpos.symm)]
              rw [← hpos] at hget
              exact hget
            · simp only [Node.wf, Bool.and_eq_true, decide_eq_true_eq]
              exact ⟨⟨⟨hep, hvep⟩, hbr'⟩, hwf'⟩
            · exact ext_wrap_unsealed epath ec' hun'
          · -- genuine split
            have hposlt : commonPrefixLen p epath < epath.length :=
              Nat.lt_of_le_of_ne (commonPrefixLen_le_right p epath)
                (fun h => hpos h.symm)
            have hp2ne : epath.drop (commonPrefixLen p epath) ≠ [] := by
              intro hnil
              have := List.drop_eq_nil_iff.mp hnil
              omega
            have hne2 : ∀ x y,
                (p.drop (commonPrefixLen p epath)).head? = Option.some x →
                (epath.drop (commonPrefixLen p epath)).head? = Option.some y →
                x ≠ y := by
              intro x y hx hy
              cases hdp : p.drop (commonPrefixLen p epath) with
              | nil => rw [hdp] at hx; exact absurd hx (by simp)
              | cons a as =>
                  cases hde : epath.drop (commonPrefixLen p epath) with
                  | nil => rw [hde] at hy; exact absurd hy (by simp)
                  | cons b bs =>
                      rw [hdp] at hx
                      rw [hde] at hy
                      simp only [List.head?_cons, Option.some.injEq] at hx hy
                      subst hx
                      subst hy
                      exact commonPrefixLen_drop_ne p epath a b as bs hdp hde
            obtain ⟨nb, hmk, hget, hwf', hun', hbr'⟩ :=
              mkSplitBranch_ok (p.drop (commonPrefixLen p epath)) v
                (epath.drop (commonPrefixLen p epath)) (.node echild)
                (validNibs_drop p _ hvp) (validNibs_drop epath _ hvep)
                hne2 (fun hand => hp2ne hand.2)
            by_cases h0 : 0 < commonPrefixLen p epath
            · refine ⟨.ext (epath.take (commonPrefixLen p epath)) nb .none, ?_,
                ext_wrap_get p epath nb v hget h0,
                ext_wrap_wf p epath nb hvep hwf' hbr' h0,
                ext_wrap_unsealed _ nb hun'⟩
              rw [Node.insertChild]
              rw [if_neg hpos, hmk]
              simp only [if_pos h0]
              rfl
            · have hz : commonPrefixLen p epath = 0 := by omega
              refine ⟨nb, ?_, ?_, hwf', hun'⟩
              · rw [Node.insertChild]
                rw [if_neg hpos, hmk]
                simp only [if_neg h0]
                rfl
              · rw [hz, List.drop_zero] at hget
                exact hget
      | leaf suffix ldata lh =>
          have hvs : validNibs suffix = true := hwf
          simp only [Node.unsealed] at hun
          have hlh : lh = Option.none := Option.isNone_iff_eq_none.mp hun
          subst hlh
          by_cases hex : suffix.length = commonPrefixLen p suffix ∧
              p.drop (commonPrefixLen p suffix) = []
          · have hpeq : p = suffix :=
              eq_of_commonPrefixLen_full p suffix hex.1.symm hex.2
            refine ⟨.leaf suffix v .none, ?_, ?_, hvs, rfl⟩
            · rw [Node.insertChild, if_pos hex]
            · rw [Node.get, if_pos hpeq]
          · have hnotboth : ¬ (p.drop (commonPrefixLen p suffix) = [] ∧
                suffix.drop (commonPrefixLen p suffix) = []) := by
              intro hand
              have h1 := List.drop_eq_nil_iff.mp hand.1
              have h2 := List.drop_eq_nil_iff.mp hand.2
              have hle1 : commonPrefixLen p suffix ≤ suffix.length :=
                commonPrefixLen_le_right p suffix
              exact hex ⟨by omega, hand.1⟩
            have hne2 : ∀ x y,
                (p.drop (commonPrefixLen p suffix)).head? = Option.some x →
                (suffix.drop (commonPrefixLen p suffix)).head? = Option.some y →
                x ≠ y := by
              intro x y hx hy
              cases hdp : p.drop (commonPrefixLen p suffix) with
              | nil => rw [hdp] at hx; exact absurd hx (by simp)
              | cons a as =>
                  cases hde : suffix.drop (commonPrefixLen p suffix) with
                  | nil => rw [hde] at hy; exact absurd hy (by simp)
                  | cons b bs =>
                      rw [hdp] at hx
                      rw [hde] at hy
                      simp only [List.head?_cons, Option.some.injEq] at hx hy
                      subst hx
                      subst hy
                      exact commonPrefixLen_drop_ne p suffix a b as bs hdp hde
            obtain ⟨nb, hmk, hget, hwf', hun', hbr'⟩ :=
              mkSplitBranch_ok (p.drop (commonPrefixLen p suffix)) v
                (suffix.drop (commonPrefixLen p suffix)) ldata
                (validNibs_drop p _ hvp) (validNibs_drop suffix _ hvs)
                hne2 hnotboth
            by_cases h0 : 0 < commonPrefixLen p suffix
            · refine ⟨.ext (suffix.take (commonPrefixLen p suffix)) nb .none, ?_,
                ext_wrap_get p suffix nb v hget h0,
                ext_wrap_wf p suffix nb hvs hwf' hbr' h0,
                ext_wrap_unsealed _ nb hun'⟩
              rw [Node.insertChild]
              rw [if_neg hex, hmk]
              simp only [if_pos h0]
              rfl
            · have hz : commonPrefixLen p suffix = 0 := by omega
              refine ⟨nb, ?_, ?_, hwf', hun'⟩
              · rw [Node.insertChild]
                rw [if_neg hex, hmk]
                simp only [if_neg h0]
                rfl
              · rw [hz, List.drop_zero] at hget
                exact hget
    -- Slots statement at fuel f+1
    have hQ : ∀ (p : List Nat) (cs : Slots) (i : Nat) (v : PVal), p.length < f + 1 →
        i < cs.length → Slots.wfAll cs = true → Slots.unsealedAll cs = true →
        validNibs p = true →
        ∃ cs', Slots.setAt cs i p v = .ok cs' ∧ Slots.getAt cs' i p = .some v ∧
          cs'.length = cs.length ∧ Slots.wfAll cs' = true ∧
          Slots.unsealedAll cs' = true := by
      intro p cs i v hlen
      induction i generalizing cs with
      | zero =>
          intro hi hwf hun hvp
          cases cs with
          | nil => simp [Slots.length] at hi
          | cons hd tl =>
              simp only [Slots.wfAll, Bool.and_eq_true] at hwf
              simp only [Slots.unsealedAll, Bool.and_eq_true] at hun
              cases hd with
              | none =>
                  refine ⟨.cons (.some (.leaf p v .none)) tl, rfl, ?_, rfl, ?_, ?_⟩
                  · show Node.get (.leaf p v .none) p = .some v
                    rw [Node.get, if_pos rfl]
                  · simp only [Slots.wfAll, Bool.and_eq_true, OptNode.wfSlot]
                    exact ⟨hvp, hwf.2⟩
                  · simp only [Slots.unsealedAll, Bool.and_eq_true,
                      OptNode.unsealedSlot]
                    exact ⟨rfl, hun.2⟩
              | some child =>
                  obtain ⟨c', hins, hget, hwf', hun'⟩ :=
                    hR p child v hlen hwf.1 hun.1 hvp
                  refine ⟨.cons (.some c') tl, ?_, hget, rfl, ?_, ?_⟩
                  · rw [Slots.setAt]
                    show (Node.insertChild child p v >>= _) = _
                    rw [hins]
                    rfl
                  · simp only [Slots.wfAll, Bool.and_eq_true, OptNode.wfSlot]
                    exact ⟨hwf', hwf.2⟩
                  · simp only [Slots.unsealedAll, Bool.and_eq_true,
                      OptNode.unsealedSlot]
                    exact ⟨hun', hun.2⟩
      | succ i ihi =>
          intro hi hwf hun hvp
          cases cs with
          | nil => simp [Slots.length] at hi
          | cons hd tl =>
              simp only [Slots.wfAll, Bool.and_eq_true] at hwf
              simp only [Slots.unsealedAll, Bool.and_eq_true] at hun
              have hi' : i < tl.length := by
                simp only [Slots.length] at hi
                omega
              obtain ⟨tl', hset, hget, hlen', hwf', hun'⟩ :=
                ihi tl hi' hwf.2 hun.2 hvp
              refine ⟨.cons hd tl', ?_, hget, ?_, ?_, ?_⟩
              · rw [Slots.setAt, hset]
                rfl
              · simp [Slots.length, hlen']
              · simp only [Slots.wfAll, Bool.and_eq_true]
                exact ⟨hwf.1, hwf'⟩
              · simp only [Slots.unsealedAll, Bool.and_eq_true]
                exact ⟨hun.1, hun'⟩
    -- Node statement at fuel f+1
    refine ⟨?_, hQ, hR⟩
    intro p n v hlen hwf hun hbr hvp
    cases n with
    | branch cs data h =>
        simp only [Node.wf, Bool.and_eq_true, decide_eq_true_eq] at hwf
        simp only [Node.unsealed, Bool.and_eq_true] at hun
        have hh : h = Option.none := Option.isNone_iff_eq_none.mp hun.1
        subst hh
        match p with
        | [] =>
            refine ⟨.branch cs (.some v) .none, by rw [Node.set]; rfl, rfl, ?_, ?_, rfl⟩
            · simp only [Node.wf, Bool.and_eq_true, decide_eq_true_eq]
              exact hwf
            · simp only [Node.unsealed, Bool.and_eq_true, Option.isNone_none,
                true_and]
              exact hun.2
        | i :: rest =>
            simp only [validNibs, Bool.and_eq_true, decide_eq_true_eq] at hvp
            have hrest : rest.length < f + 1 := by
              simp only [List.length_cons] at hlen
              omega
            obtain ⟨cs', hset, hget, hlen', hwf', hun'⟩ :=
              hQ rest cs i v hrest (by rw [hwf.1]; exact hvp.1) hwf.2 hun.2 hvp.2
            refine ⟨.branch cs' data .none, ?_, hget, ?_, ?_, rfl⟩
            · rw [Node.set]
              simp only [Option.isSome_none, Bool.false_eq_true, if_false]
              rw [hset]
              rfl
            · simp only [Node.wf, Bool.and_eq_true, decide_eq_true_eq]
              exact ⟨by rw [hlen']; exact hwf.1, hwf'⟩
            · simp only [Node.unsealed, Bool.and_eq_true, Option.isNone_none,
                true_and]
              exact hun'
    | ext epath child h => simp [Node.isBranch] at hbr
    | leaf suffix data h => simp [Node.isBranch] at hbr

theorem Node.hashOf_of_unsealed (n : Node) (h : Node.unsealed n = true) :
    n.hashOf = Option.none := by
  cases n with
  | branch cs data hh =>
      simp only [Node.unsealed, Bool.and_eq_true] at h
      exact Option.isNone_iff_eq_none.mp h.1
  | ext epath child hh =>
      simp only [Node.unsealed, Bool.and_eq_true] at h
      exact Option.isNone_iff_eq_none.mp h.1
  | leaf suffix data hh =>
      exact Option.isNone_iff_eq_none.mp h

theorem validNibs_bytes_to_nibbles (k : List Nat) (h : validKey k = true) :
    validNibs (bytes_to_nibbles k) = true := by
  induction k with
  | nil => rfl
  | cons b rest ih =>
      simp only [validKey, List.all_cons, Bool.and_eq_true, decide_eq_true_eq] at h
      simp only [bytes_to_nibbles, validNibs, Bool.and_eq_true, decide_eq_true_eq]
      refine ⟨Nat.mod_lt b (by omega), ⟨?_, ih (by
        simp only [validKey]
        exact h.2)⟩⟩
      omega

theorem PatriciaTree.set_of_open (t : PatriciaTree) (k : List Nat) (v : PVal)
    (n' : Node) (hs : t.is_sealed = false)
    (hset : t.root.set (bytes_to_nibbles k) v = .ok n') :
    t.set k v = .ok ⟨n'⟩ := by
  unfold PatriciaTree.set
  rw [hs]
  simp only [Bool.false_eq_true, if_false]
  rw [hset]
  rfl

theorem setOp_preserves_inv (t : PatriciaTree) (k : List Nat) (v : PVal)
    (hk : validKey k = true) (h1 : Node.wf t.root = true)
    (h2 : Node.unsealed t.root = true) (h3 : Node.isBranch t.root = true) :
    Node.wf (t.setOp k v).snd.root = true ∧
    Node.unsealed (t.setOp k v).snd.root = true ∧
    Node.isBranch (t.setOp k v).snd.root = true := by
  unfold PatriciaTree.setOp
  cases hset : t.set k v with
  | error e => exact ⟨h1, h2, h3⟩
  | ok t' =>
      obtain ⟨n', hsn, _, hw, hu, hb⟩ :=
        (set_roundtrip_aux ((bytes_to_nibbles k).length + 1)).1
          (bytes_to_nibbles k) t.root v (Nat.lt_succ_self _) h1 h2 h3
          (validNibs_bytes_to_nibbles k hk)
      have hsealed : t.is_sealed = false := by
        unfold PatriciaTree.is_sealed
        rw [Node.hashOf_of_unsealed t.root h2]
        rfl
      rw [PatriciaTree.set_of_open t k v n' hsealed hsn] at hset
      cases hset
      exact ⟨hw, hu, hb⟩

theorem buildOps_inv (ops : List (List Nat × PVal))
    (hops : ∀ kv ∈ ops, validKey kv.fst = true) :
    Node.wf (buildOps ops).root = true ∧
    Node.unsealed (buildOps ops).root = true ∧
    Node.isBranch (buildOps ops).root = true := by
  have haux : ∀ (l : List (List Nat × PVal)) (t : PatriciaTree),
      (∀ kv ∈ l, validKey kv.fst = true) →
      Node.wf t.root = true → Node.unsealed t.root = true →
      Node.isBranch t.root = true →
      Node.wf (l.foldl (fun t kv => (t.setOp kv.fst kv.snd).snd) t).root = true ∧
      Node.unsealed (l.foldl (fun t kv => (t.setOp kv.fst kv.snd).snd) t).root = true ∧
      Node.isBranch (l.foldl (fun t kv => (t.setOp kv.fst kv.snd).snd) t).root = true := by
    intro l
    induction l with
    | nil => exact fun t _ h1 h2 h3 => ⟨h1, h2, h3⟩
    | cons kv rest ih =>
        intro t hl h1 h2 h3
        obtain ⟨g1, g2, g3⟩ :=
          setOp_preserves_inv t kv.fst kv.snd (hl kv (.head rest)) h1 h2 h3
        exact ih (t.setOp kv.fst kv.snd).snd
          (fun kv2 hm => hl kv2 (.tail kv hm)) g1 g2 g3
  exact haux ops PatriciaTree.new hops rfl rfl rfl

/-! ## Claim C1: set-then-get round trip on any open trie -/

/-- C1: on the open trie obtained by any prior sequence of insertions of
byte-string keys, `set k v` succeeds for every byte-string key `k` and every
value, and an immediately following `get k` returns exactly `v`. -/
theorem set_get_roundtrip (ops : List (List Nat × PVal)) (k : List Nat) (v : PVal)
    (hops : ∀ kv ∈ ops, validKey kv.fst = true) (hk : validKey k = true) :
    ∃ t', (buildOps ops).set k v = .ok t' ∧ t'.get k = .some v := by
  obtain ⟨h1, h2, h3⟩ := buildOps_inv ops hops
  have hsealed : (buildOps ops).is_sealed = false := by
    unfold PatriciaTree.is_sealed
    rw [Node.hashOf_of_unsealed _ h2]
    rfl
  obtain ⟨n', hset, hget, _, _, _⟩ :=
    (set_roundtrip_aux ((bytes_to_nibbles k).length + 1)).1
      (bytes_to_nibbles k) (buildOps ops).root v (Nat.lt_succ_self _) h1 h2 h3
      (validNibs_bytes_to_nibbles k hk)
  exact ⟨⟨n'⟩, PatriciaTree.set_of_open _ k v n' hsealed hset, hget⟩

/-- Witness for `set_get_roundtrip`: one prior insertion, then a fresh key. -/
theorem set_get_roundtrip_witness :
    (((buildOps [([102], PVal.bytes [7])]).set [1, 2] (PVal.bytes [9])).map
      (fun t' => t'.get [1, 2])) = Except.ok (Datum.some (PVal.bytes [9])) := by
  obtain ⟨t', hset, hget⟩ :=
    set_get_roundtrip [([102], PVal.bytes [7])] [1, 2] (PVal.bytes [9])
      (by decide) (by decide)
  rw [hset, show ((Except.ok t' : Except SErr PatriciaTree).map
    (fun t2 => t2.get [1, 2])) = Except.ok (t'.get [1, 2]) from rfl, hget]

/-! ## Claim C6: fork independence -/

/-- C6: forking any trie (open or sealed) yields a new open trie with exactly
the same observable mapping; mutating the fork succeeds (even when the source
is sealed, since every copied node is unsealed) and the mutation stays inside
the fork, the original trie value being untouched by construction of the
functional state-transformer semantics, and vice versa. -/
theorem fork_independence (t : PatriciaTree) (hwf : Node.wf t.root = true)
    (hbr : Node.isBranch t.root = true) :
    t.clone.is_sealed = false ∧
    (∀ k, t.clone.get k = t.get k) ∧
    (∀ k v, validKey k = true →
      ∃ t2, t.clone.set k v = .ok t2 ∧ t2.get k = .some v) ∧
    (∀ k v k2, (t, (t.clone.setOp k v).snd).fst.get k2 = t.get k2) ∧
    (∀ k v k2, ((t.setOp k v).snd, t.clone).snd.get k2 = t.clone.get k2) := by
  have hcun : Node.unsealed t.clone.root = true := Node.clone_unsealed t.root
  refine ⟨?_, ?_, ?_, fun k v k2 => rfl, fun k v k2 => rfl⟩
  · unfold PatriciaTree.is_sealed
    rw [Node.hashOf_of_unsealed _ hcun]
    rfl
  · intro k
    exact Node.clone_get t.root (bytes_to_nibbles k)
  · intro k v hk
    have hsealed : t.clone.is_sealed = false := by
      unfold PatriciaTree.is_sealed
      rw [Node.hashOf_of_unsealed _ hcun]
      rfl
    obtain ⟨n', hset, hget, _, _, _⟩ :=
      (set_roundtrip_aux ((bytes_to_nibbles k).length + 1)).1
        (bytes_to_nibbles k) t.clone.root v (Nat.lt_succ_self _)
        (Node.clone_wf t.root hwf) hcun
        (by show (Node.clone t.root).isBranch = true
            rw [Node.clone_isBranch]
            exact hbr)
        (validNibs_bytes_to_nibbles k hk)
    exact ⟨⟨n'⟩, PatriciaTree.set_of_open _ k v n' hsealed hset, hget⟩

/-- Witness for `fork_independence` on a one-key trie. -/
theorem fork_independence_witness :
    (buildOps [([102], PVal.bytes [5])]).clone.is_sealed = false ∧
    (buildOps [([102], PVal.bytes [5])]).clone.get [102] =
      (buildOps [([102], PVal.bytes [5])]).get [102] :=
  ⟨(fork_independence (buildOps [([102], PVal.bytes [5])]) rfl rfl).1,
   (fork_independence (buildOps [([102], PVal.bytes [5])]) rfl rfl).2.1 [102]⟩

end PTree
